import Mathlib

/-!
# Verification of the `ncsales` lead-scoring pipeline

Shallow embedding of `src/ncsales/cli.py` (targeting CPython 3.5, as pinned by
the shebang and `setup.py`).  Python machine floats are modelled by `ℚ`; all the
concrete values exercised by the theorems below are exactly representable as
binary doubles, so `ℚ` arithmetic agrees with the float arithmetic of the
source on them.  Python exceptions are modelled with `Except`/`Option`.
-/

/-! ## Python numeric string parsing (`int(s)` / `float(s)`) -/

/-- Value of a list of ASCII digit characters, most significant first. -/
def digitsVal (cs : List Char) : ℕ :=
  cs.foldl (fun n c => 10 * n + (c.toNat - 48)) 0

/-- ASCII whitespace, as stripped by Python's `int`/`float` conversions. -/
def pyWS (c : Char) : Bool :=
  c = ' ' ∨ c = '\t' ∨ c = '\n' ∨ c = '\r' ∨ c = '\x0b' ∨ c = '\x0c'

/-- Strip leading and trailing whitespace from a character list. -/
def pyStrip (cs : List Char) : List Char :=
  ((cs.dropWhile pyWS).reverse.dropWhile pyWS).reverse

/-- Model of Python `int(s)` on a string: optional surrounding whitespace,
optional sign, then a non-empty run of ASCII digits.  Returns `none` when the
conversion raises `ValueError`. -/
def pyParseInt (s : String) : Option ℤ :=
  match pyStrip s.data with
  | [] => none
  | c :: rest =>
    let sgn : ℤ := if c = '-' then -1 else 1
    let ds := if c = '-' ∨ c = '+' then rest else c :: rest
    if ds ≠ [] ∧ ds.all Char.isDigit then some (sgn * digitsVal ds) else none

/-- Splits off the leading run of ASCII digits. -/
def spanDigits (cs : List Char) : List Char × List Char :=
  (cs.takeWhile Char.isDigit, cs.dropWhile Char.isDigit)

/-- Unsigned part of Python's float literal grammar:
`digits [. digits] [e [sign] digits]` or `. digits [e [sign] digits]`.
(`inf` and `nan`, which Python also accepts, have no rational counterpart and
are outside the model.) -/
def pyFloatCore (cs : List Char) : Option ℚ :=
  let p1 := spanDigits cs
  let afterDot : Bool × List Char × List Char :=
    match p1.2 with
    | '.' :: r => (true, spanDigits r)
    | r => (false, [], r)
  if p1.1.isEmpty ∧ afterDot.2.1.isEmpty then none
  else
    let mant : ℚ := (digitsVal p1.1 : ℚ) + (digitsVal afterDot.2.1 : ℚ) / 10 ^ afterDot.2.1.length
    match afterDot.2.2 with
    | [] => some mant
    | e :: r =>
      if e = 'e' ∨ e = 'E' then
        let esgn : ℤ := match r with | '-' :: _ => -1 | _ => 1
        let r2 := match r with | '-' :: t => t | '+' :: t => t | t => t
        let ed := spanDigits r2
        if ed.1.isEmpty ∨ ¬ ed.2.isEmpty then none
        else some (mant * (10 : ℚ) ^ (esgn * digitsVal ed.1))
      else none

/-- Model of Python `float(s)`: optional surrounding whitespace, optional sign,
then the unsigned literal grammar.  Returns `none` on `ValueError`. -/
def pyParseFloat (s : String) : Option ℚ :=
  match pyStrip s.data with
  | '-' :: r => (pyFloatCore r).map (fun q => -q)
  | '+' :: r => pyFloatCore r
  | r => pyFloatCore r

/-! ## Static tables (`EVENT_TYPES`, `EVENT_FACTORS`, `QUARTILE_LABELS`) -/

/-- The tuple `EVENT_TYPES = ('web', 'email', 'social', 'webinar')`. -/
def EVENT_TYPES : List String := ["web", "email", "social", "webinar"]

/-- The table `EVENT_FACTORS`: the weight table of `cli.py` (1.0, 1.2, 1.5, 2.0 as exact
rationals; all four are exactly representable binary doubles except 1.2, whose
double rounding is irrelevant to the claims checked here). -/
def EVENT_FACTORS : List (String × ℚ) :=
  [("web", 1), ("email", 6/5), ("social", 3/2), ("webinar", 2)]

/-- Lookup `factors[event_type]` (`dict(EVENT_FACTORS)`); the caller only uses
it on members of `EVENT_TYPES`, so the default is never reached. -/
def factorOf (t : String) : ℚ :=
  match EVENT_FACTORS.find? (fun p => p.1 = t) with
  | some p => p.2
  | none => 0

/-- The table `QUARTILE_LABELS`: label with inclusive integer band. -/
def QUARTILE_LABELS : List (String × ℤ × ℤ) :=
  [("platinum", 75, 100), ("gold", 50, 74), ("silver", 25, 49), ("bronze", 0, 24)]

/-! ## `parse_row` -/

/-- A Python value sitting in a row list: the source replaces `row[0]` and
`row[2]` by their converted values in place, so a row mixes strings, an int and
a float over its lifetime. -/
inductive PyVal where
  | i (n : ℤ)
  | s (st : String)
  | f (q : ℚ)
  deriving DecidableEq, Repr

/-- The four `ValidationError` reasons of `cli.parse_row`, in source order. -/
inductive ValidationError where
  | malformedRow
  | badContactId
  | unknownEventType
  | badScore
  deriving DecidableEq, Repr

/-- Function `cli.parse_row`, with the in-place mutation made explicit: the result is
`(outcome, final state of the row list)`.  The source checks, in order:
fewer than 3 fields (`Malformed row`); `int(row[0])` (`Bad contact id`,
assigning the converted value into `row[0]` on success); membership of `row[1]`
in `EVENT_TYPES` (`Unknown event type`); `float(row[2])` (`Bad score`,
assigning into `row[2]` on success); then returns the (mutated) row itself. -/
def parse_rowS (row : List String) : Except ValidationError (List PyVal) × List PyVal :=
  match row with
  | a :: b :: c :: rest =>
    match pyParseInt a with
    | none => (Except.error ValidationError.badContactId, row.map PyVal.s)
    | some ia =>
      let st1 := PyVal.i ia :: PyVal.s b :: PyVal.s c :: rest.map PyVal.s
      if b ∈ EVENT_TYPES then
        match pyParseFloat c with
        | none => (Except.error ValidationError.badScore, st1)
        | some fc =>
          let st2 := PyVal.i ia :: PyVal.s b :: PyVal.f fc :: rest.map PyVal.s
          (Except.ok st2, st2)
      else (Except.error ValidationError.unknownEventType, st1)
  | _ => (Except.error ValidationError.malformedRow, row.map PyVal.s)

/-- Result of `cli.parse_row` (the returned value or the raised error). -/
def parse_row (row : List String) : Except ValidationError (List PyVal) :=
  (parse_rowS row).1

/-- The destructuring `contact_id, event_type, score = l` in `process_file`:
succeeds exactly on lists of length 3 (a successfully parsed row always has the
shape `int, str, float` in its first three positions), and raises an uncaught
`ValueError` (modelled by `none`) otherwise. -/
def unpack3 (l : List PyVal) : Option (ℤ × String × ℚ) :=
  match l with
  | [PyVal.i a, PyVal.s b, PyVal.f q] => some (a, b, q)
  | _ => none

/-- The typed record `(contact_id, event_type, score)` produced by a successful
`parse_row` call whose row destructures into exactly three variables. -/
def parsedRecord (row : List String) : Option (ℤ × String × ℚ) :=
  match parse_row row with
  | Except.ok l => unpack3 l
  | Except.error _ => none

/-! ## `get_quartile_label` -/

/-- First band of `QUARTILE_LABELS` whose inclusive range contains `score`,
else `''`.  (The source iterates `dict(QUARTILE_LABELS).items()`, whose order
is arbitrary in CPython 3.5, but the four bands are pairwise disjoint so at
most one matches and the result does not depend on the iteration order.) -/
def get_quartile_label (score : ℤ) : String :=
  match QUARTILE_LABELS.find? (fun p => p.2.1 ≤ score ∧ score ≤ p.2.2) with
  | some p => p.1
  | none => ""

deriving instance DecidableEq for Except

/-! ## Aggregation (`process_file`, first loop)

`contacts = defaultdict(float)` maps contact ids to cumulative weighted scores.
The mapping content is embedded as an association list whose key order is the
order of first insertion; the hash-table iteration order of the CPython 3.5
dict is modelled separately below. -/

/-- Association list lookup (`contact_id in contacts` / `contacts[contact_id]`). -/
def lookupQ (c : ℤ) : List (ℤ × ℚ) → Option ℚ
  | [] => none
  | (a, v) :: t => if a = c then some v else lookupQ c t

/-- Update `contacts[c] += x` on a `defaultdict(float)`: a missing key starts at `0.0`,
so the first contribution initializes the entry to `x`; key order of the
underlying assoc list records first-insertion order. -/
def addTo (ag : List (ℤ × ℚ)) (c : ℤ) (x : ℚ) : List (ℤ × ℚ) :=
  match ag with
  | [] => [(c, x)]
  | (a, v) :: t => if a = c then (a, v + x) :: t else (a, v) :: addTo t c x

/-- The aggregation loop of `cli.process_file`:

    for row in get_data(the_file):
        try:
            contact_id, event_type, score = parse_row(row)
        except ValidationError:
            logger.exception(...)
        else:
            contacts[contact_id] += score * factors[event_type]

A `ValidationError` is caught and the row skipped.  When `parse_row` succeeds
but returns a list of length ≠ 3 (a row with extra trailing fields), the tuple
destructuring raises an uncaught `ValueError`, aborting the whole run: this is
modelled by `none`. -/
def aggregateOf : List (List String) → List (ℤ × ℚ) → Option (List (ℤ × ℚ))
  | [], ag => some ag
  | row :: rest, ag =>
    match parse_row row with
    | Except.error _ => aggregateOf rest ag
    | Except.ok l =>
      match unpack3 l with
      | some (a, b, q) => aggregateOf rest (addTo ag a (q * factorOf b))
      | none => none

/-! ## Extremes and normalization (`process_file`, second and third loop) -/

/-- The `max_score` fold of `process_file` (`None` start, strict `>` update);
the result is the maximum of the values and does not depend on the iteration
order of `contacts.values()`. -/
def maxQ : List ℚ → Option ℚ
  | [] => none
  | v :: vs => some (vs.foldl (fun m s => if s > m then s else m) v)

/-- The `min_score` fold of `process_file` (`None` start, strict `<` update). -/
def minQ : List ℚ → Option ℚ
  | [] => none
  | v :: vs => some (vs.foldl (fun m s => if s < m then s else m) v)

/-- Python 3 `round` on an exact value: round to nearest, ties to the even
integer (banker's rounding, the semantics of `round` since Python 3.0). -/
def pyRound (q : ℚ) : ℤ :=
  if q - ⌊q⌋ > 1/2 then ⌊q⌋ + 1
  else if q - ⌊q⌋ < 1/2 then ⌊q⌋
  else if ⌊q⌋ % 2 = 0 then ⌊q⌋ else ⌊q⌋ + 1

/-- Round half away from zero, the rounding mode the specification ascribes to
the source for positive values (stated only for comparison with `pyRound`). -/
def roundHalfAway (q : ℚ) : ℤ :=
  if 0 ≤ q then ⌊q + 1/2⌋ else -⌊-q + 1/2⌋

/-! ## CPython 3.5 dict iteration order

The source's shebang pins `python3.5`, whose dicts are open-addressing hash
tables iterated in slot order (insertion-ordered dicts only arrived with
CPython 3.6/3.7).  `test_process_file` in `src/tests/test_cli.py` relies on
this: contacts are first seen in order 1, 3, 2 but the expected report order is
1, 2, 3.  Since the pipeline performs no deletions and value updates do not
move entries, the table layout is a function of the distinct keys in
first-insertion order, modelled here. -/

/-- CPython `hash` of an int: reduction modulo the Mersenne prime `2^61 - 1`
(sign-preserving), with `-1` replaced by `-2`. -/
def pyHashInt (n : ℤ) : ℤ :=
  let M : ℤ := 2 ^ 61 - 1
  let h := if 0 ≤ n then n % M else -((-n) % M)
  if h = -1 then -2 else h

/-- The open-addressing probe of CPython 3.5 `lookdict` for a key that is not
in the table: from `i₀ = (size_t)hash & mask`, follow
`i ← (5*i + perturb + 1) & mask`, `perturb ← perturb >> 5` (`perturb` starts
as the 64-bit hash) until an empty slot is found.  The table size is a power
of two dividing `2^64`, so masking commutes with the arithmetic and tracking
`i` modulo the size is faithful.  The fuel `size + 64` always suffices:
`perturb` reaches 0 after at most 13 shifts and `i ↦ 5*i + 1` is then a
full-period LCG modulo a power of two. -/
def probeFrom (slots : List (Option ℤ)) : ℕ → ℕ → ℕ → Option ℕ
  | 0, _, _ => none
  | fuel + 1, i, perturb =>
    match slots.get? i with
    | some none => some i
    | _ => probeFrom slots fuel ((5 * i + perturb + 1) % slots.length) (perturb / 32)

/-- Slot where CPython 3.5 places a new integer key `k`.  The linear-scan
fallback is dead code for the reachable fuel (see `probeFrom`); it keeps the
model total while still always answering an empty slot. -/
def findSlot (slots : List (Option ℤ)) (k : ℤ) : Option ℕ :=
  let perturb := ((pyHashInt k) % (2 : ℤ) ^ 64).toNat
  match probeFrom slots (slots.length + 64) (perturb % slots.length) perturb with
  | some i => some i
  | none => slots.findIdx? (fun s => s.isNone)

/-- Insert a new key into the table (no resize check). -/
def insertRaw (slots : List (Option ℤ)) (k : ℤ) : List (Option ℤ) :=
  match findSlot slots k with
  | some i => slots.set i (some k)
  | none => slots

/-- Table sizing of `dictresize`: start at `PyDict_MINSIZE_COMBINED = 8` and
double while `newsize <= minused`. -/
def growLoop (minused : ℕ) : ℕ → ℕ → ℕ
  | 0, acc => acc
  | fuel + 1, acc => if acc ≤ minused then growLoop minused fuel (2 * acc) else acc

/-- Load limit of a CPython 3.3-3.5 dict table:
`USABLE_FRACTION(n) = (2*n + 1) / 3`.  The counter `dk_usable` is this limit
minus the number of stored keys (no deletions happen here), so it hits 0
exactly when the key count reaches this fraction. -/
def usableFraction (n : ℕ) : ℕ := (2 * n + 1) / 3

/-- Resize `dictresize(mp, GROWTH_RATE(mp))` of CPython 3.5: the requested
minimum is `GROWTH_RATE = 2*ma_used + dk_size/2`, the new size is the smallest
power of two (from `PyDict_MINSIZE_COMBINED = 8`) strictly above it, and the
old entries are reinserted into the fresh table in slot order of the old
table. -/
def dictResize (slots : List (Option ℤ)) : List (Option ℤ) :=
  let used := (slots.filterMap id).length
  let minused := 2 * used + slots.length / 2
  let newsize := growLoop minused (minused + 1) 8
  (slots.filterMap id).foldl insertRaw (List.replicate newsize none)

/-- Insertion `insertdict` of CPython 3.5 for a key not yet present: while the
table still has usable entries (`dk_usable > 0`, i.e. the key count is below
`USABLE_FRACTION` of the size) the key is placed directly; otherwise the table
is resized first and the triggering key is then placed into the fresh table,
after the reinserted old keys. -/
def dictInsertNew (slots : List (Option ℤ)) (k : ℤ) : List (Option ℤ) :=
  if (slots.filterMap id).length < usableFraction slots.length then insertRaw slots k
  else insertRaw (dictResize slots) k

/-- Iteration order of a CPython 3.5 dict over integer keys, as a function of
the distinct keys in first-insertion order: build the table (initial size 8)
and read the occupied slots in slot order. -/
def py35DictOrder (keys : List ℤ) : List ℤ :=
  (keys.foldl dictInsertNew (List.replicate 8 none)).filterMap id

/-! ## Normalization and labeling (`process_file`, final loop) -/

/-- Normalized score of an aggregated total `s`: `0` when
`max_score == min_score` (one contact, or all tied), else
`int(round((score - min_score) / (max_score - min_score) * 100))`
(Python's `round` on the machine-float ratio; `int` of an `int` is the
identity). -/
def normScore (mx mn s : ℚ) : ℤ :=
  if mx = mn then 0 else pyRound ((s - mn) / (mx - mn) * 100)

/-- The second half of `cli.process_file`: compute `max_score`/`min_score`
over the aggregate values, then for each contact (in dict iteration order) the
normalized score and its quartile label.  An empty aggregate yields an empty
report (the `None, None` extremes are never compared because the final loop
body never runs). -/
def normalizeStage (ag : List (ℤ × ℚ)) : List (ℤ × String × ℤ) :=
  match maxQ (ag.map Prod.snd), minQ (ag.map Prod.snd) with
  | some mx, some mn =>
    (py35DictOrder (ag.map Prod.fst)).map (fun c =>
      let n := normScore mx mn ((lookupQ c ag).getD 0)
      (c, get_quartile_label n, n))
  | _, _ => []

/-- Function `cli.process_file` on a stream of raw rows (the rows produced by
`get_data`, as the repository's own tests inject them): aggregation followed by
normalization and labeling.  `none` models the uncaught `ValueError` raised by
the destructuring of a successfully parsed row of length ≠ 3. -/
def process_file (rows : List (List String)) : Option (List (ℤ × String × ℤ)) :=
  (aggregateOf rows []).map normalizeStage

/-- Sum of the weighted contributions `score * factors[event_type]` of the
validated rows carrying contact id `c`, in stream order. -/
def contribSum (c : ℤ) (rows : List (List String)) : ℚ :=
  (((rows.filterMap parsedRecord).filter (fun r => r.1 = c)).map
    (fun r => r.2.2 * factorOf r.2.1)).sum

/-! # Lemmas -/

/-- Closed form of `get_quartile_label` as a cascade of range tests. -/
theorem get_quartile_label_eq (score : ℤ) :
    get_quartile_label score =
      if 75 ≤ score ∧ score ≤ 100 then "platinum"
      else if 50 ≤ score ∧ score ≤ 74 then "gold"
      else if 25 ≤ score ∧ score ≤ 49 then "silver"
      else if 0 ≤ score ∧ score ≤ 24 then "bronze"
      else "" := by
  simp only [get_quartile_label, QUARTILE_LABELS, List.find?_cons]
  by_cases h1 : 75 ≤ score ∧ score ≤ 100 <;>
    by_cases h2 : 50 ≤ score ∧ score ≤ 74 <;>
      by_cases h3 : 25 ≤ score ∧ score ≤ 49 <;>
        by_cases h4 : 0 ≤ score ∧ score ≤ 24 <;>
          simp [h1, h2, h3, h4]

/-- Scores in `[0, 100]` always get one of the four non-empty labels. -/
theorem get_quartile_label_ne_empty {score : ℤ} (h0 : 0 ≤ score) (h1 : score ≤ 100) :
    get_quartile_label score ≠ "" := by
  rw [get_quartile_label_eq]
  split_ifs <;> simp_all <;> omega

/-! ## Association list lemmas -/

theorem lookupQ_addTo (ag : List (ℤ × ℚ)) (a c : ℤ) (x : ℚ) :
    lookupQ c (addTo ag a x) =
      if a = c then some ((lookupQ c ag).getD 0 + x) else lookupQ c ag := by
  induction ag with
  | nil =>
    by_cases h : a = c <;> simp [addTo, lookupQ, h]
  | cons hd tl ih =>
    obtain ⟨b, v⟩ := hd
    by_cases hb : b = a
    · subst hb
      by_cases h : b = c <;> simp [addTo, lookupQ, h, ih]
    · by_cases h : b = c
      · subst h
        simp only [addTo, if_neg hb, lookupQ, if_pos rfl]
        have : ¬ a = b := fun hc => hb hc.symm
        simp [this]
      · simp [addTo, lookupQ, hb, h, ih]

theorem keys_addTo (ag : List (ℤ × ℚ)) (a : ℤ) (x : ℚ) :
    (addTo ag a x).map Prod.fst =
      if a ∈ ag.map Prod.fst then ag.map Prod.fst else ag.map Prod.fst ++ [a] := by
  induction ag with
  | nil => simp [addTo]
  | cons hd tl ih =>
    obtain ⟨b, v⟩ := hd
    by_cases hb : b = a
    · subst hb
      simp [addTo]
    · have : ¬ a = b := fun hc => hb hc.symm
      by_cases hmem : a ∈ tl.map Prod.fst <;> simp [addTo, hb, this, hmem, ih]

theorem keys_addTo_nodup {ag : List (ℤ × ℚ)} (h : (ag.map Prod.fst).Nodup) (a : ℤ) (x : ℚ) :
    ((addTo ag a x).map Prod.fst).Nodup := by
  rw [keys_addTo]
  split_ifs with hmem
  · exact h
  · simp [List.nodup_append, h, hmem]

theorem lookupQ_isSome_iff (c : ℤ) (ag : List (ℤ × ℚ)) :
    (lookupQ c ag).isSome ↔ c ∈ ag.map Prod.fst := by
  induction ag with
  | nil => simp [lookupQ]
  | cons hd tl ih =>
    obtain ⟨b, v⟩ := hd
    by_cases h : b = c
    · subst h
      simp [lookupQ]
    · have : ¬ c = b := fun hc => h hc.symm
      simp [lookupQ, h, this, ih]

theorem lookupQ_mem {c : ℤ} {ag : List (ℤ × ℚ)} {v : ℚ} (h : lookupQ c ag = some v) :
    (c, v) ∈ ag := by
  induction ag with
  | nil => simp [lookupQ] at h
  | cons hd tl ih =>
    obtain ⟨b, w⟩ := hd
    by_cases hb : b = c
    · subst hb
      simp only [lookupQ, if_pos rfl] at h
      simp at h
      simp [h]
    · simp only [lookupQ, if_neg hb] at h
      simp [ih h]

theorem parsedRecord_eq_some {row : List String} {l : List PyVal} {r : ℤ × String × ℚ}
    (hp : parse_row row = Except.ok l) (hu : unpack3 l = some r) :
    parsedRecord row = some r := by
  simp [parsedRecord, hp, hu]

theorem parsedRecord_eq_none {row : List String} {e : ValidationError}
    (hp : parse_row row = Except.error e) : parsedRecord row = none := by
  simp [parsedRecord, hp]

theorem aggregateOf_lookup {rows : List (List String)} {ag0 ag : List (ℤ × ℚ)}
    (h : aggregateOf rows ag0 = some ag) (c : ℤ) :
    lookupQ c ag =
      match lookupQ c ag0 with
      | some v => some (v + contribSum c rows)
      | none =>
        if (rows.filterMap parsedRecord).any (fun r => r.1 = c) then some (contribSum c rows)
        else none := by
  induction rows generalizing ag0 with
  | nil =>
    simp only [aggregateOf, Option.some.injEq] at h
    subst h
    cases hl : lookupQ c ag0 <;> simp [contribSum]
  | cons row rest ih =>
    rw [aggregateOf] at h
    cases hp : parse_row row with
    | error e =>
      simp only [hp] at h
      rw [ih h]
      have hr := parsedRecord_eq_none hp
      cases hl : lookupQ c ag0 <;> simp [contribSum, hr]
    | ok l =>
      cases hu : unpack3 l with
      | none =>
        simp only [hp, hu] at h
        cases h
      | some r =>
        obtain ⟨a, b, q⟩ := r
        simp only [hp, hu] at h
        rw [ih h, lookupQ_addTo]
        have hr := parsedRecord_eq_some hp hu
        by_cases hac : a = c
        · subst hac
          cases hl : lookupQ a ag0 <;>
            simp [contribSum, hr, hl, add_assoc]
        · cases hl : lookupQ c ag0 <;>
            simp [contribSum, hr, hl, hac]

/-- Specialization to the empty initial aggregate of `process_file`. -/
theorem aggregateOf_lookup_nil {rows : List (List String)} {ag : List (ℤ × ℚ)}
    (h : aggregateOf rows [] = some ag) (c : ℤ) :
    lookupQ c ag =
      if (rows.filterMap parsedRecord).any (fun r => r.1 = c) then some (contribSum c rows)
      else none := by
  have := aggregateOf_lookup h c
  simpa [lookupQ] using this

/-- Keys of the final aggregate are the distinct contact ids of validated rows. -/
theorem aggregateOf_mem_keys {rows : List (List String)} {ag : List (ℤ × ℚ)}
    (h : aggregateOf rows [] = some ag) (c : ℤ) :
    c ∈ ag.map Prod.fst ↔ ∃ r ∈ rows, ∃ b q, parsedRecord r = some (c, b, q) := by
  rw [← lookupQ_isSome_iff, aggregateOf_lookup_nil h c]
  by_cases hany : (rows.filterMap parsedRecord).any (fun r => r.1 = c)
  · simp only [hany, if_true, Option.isSome_some, true_iff]
    simp only [List.any_eq_true, List.mem_filterMap, decide_eq_true_eq] at hany
    obtain ⟨⟨a, b, q⟩, ⟨r, hr, hrec⟩, hc⟩ := hany
    subst hc
    exact ⟨r, hr, b, q, hrec⟩
  · simp only [hany, if_false, Option.isSome_none, Bool.false_eq_true, false_iff]
    rintro ⟨r, hr, b, q, hrec⟩
    apply hany
    simp only [List.any_eq_true, List.mem_filterMap, decide_eq_true_eq]
    exact ⟨(c, b, q), ⟨r, hr, hrec⟩, rfl⟩

/-- The final aggregate's keys are distinct when the initial ones are. -/
theorem aggregateOf_keys_nodup {rows : List (List String)} {ag0 ag : List (ℤ × ℚ)}
    (h : aggregateOf rows ag0 = some ag) (h0 : (ag0.map Prod.fst).Nodup) :
    (ag.map Prod.fst).Nodup := by
  induction rows generalizing ag0 with
  | nil =>
    simp only [aggregateOf, Option.some.injEq] at h
    subst h
    exact h0
  | cons row rest ih =>
    rw [aggregateOf] at h
    cases hp : parse_row row with
    | error e =>
      simp only [hp] at h
      exact ih h h0
    | ok l =>
      cases hu : unpack3 l with
      | none =>
        simp only [hp, hu] at h
        cases h
      | some r =>
        obtain ⟨a, b, q⟩ := r
        simp only [hp, hu] at h
        exact ih h (keys_addTo_nodup h0 a (q * factorOf b))

/-- Skipped rows: a row failing validation leaves the whole run unchanged. -/
theorem aggregateOf_skip {row : List String} {e : ValidationError}
    (hp : parse_row row = Except.error e) (rows : List (List String)) (ag0 : List (ℤ × ℚ)) :
    aggregateOf (row :: rows) ag0 = aggregateOf rows ag0 := by
  rw [aggregateOf, hp]

/-! ## Extremes lemmas -/

theorem maxFold_mem (vs : List ℚ) (acc : ℚ) :
    vs.foldl (fun m s => if s > m then s else m) acc ∈ acc :: vs := by
  induction vs generalizing acc with
  | nil => simp
  | cons v vs ih =>
    simp only [List.foldl_cons]
    rcases List.mem_cons.1 (ih (if v > acc then v else acc)) with h | h
    · by_cases hv : v > acc <;> simp [hv] at h <;> simp [hv, h]
    · simp [h]

theorem le_maxFold (vs : List ℚ) (acc : ℚ) :
    acc ≤ vs.foldl (fun m s => if s > m then s else m) acc ∧
      ∀ v ∈ vs, v ≤ vs.foldl (fun m s => if s > m then s else m) acc := by
  induction vs generalizing acc with
  | nil => simp
  | cons v vs ih =>
    simp only [List.foldl_cons]
    obtain ⟨h1, h2⟩ := ih (if v > acc then v else acc)
    refine ⟨?_, ?_⟩
    · refine le_trans ?_ h1
      by_cases hv : v > acc <;> simp [hv]
      · exact le_of_lt hv
    · intro w hw
      rcases List.mem_cons.1 hw with rfl | hw
      · refine le_trans ?_ h1
        by_cases hv : w > acc
        · simp [hv]
        · simp only [if_neg hv]
          exact le_of_not_lt hv
      · exact h2 w hw

theorem maxQ_mem {l : List ℚ} {m : ℚ} (h : maxQ l = some m) : m ∈ l := by
  cases l with
  | nil => simp [maxQ] at h
  | cons v vs =>
    simp only [maxQ, Option.some.injEq] at h
    subst h
    exact maxFold_mem vs v

theorem le_maxQ {l : List ℚ} {m : ℚ} (h : maxQ l = some m) : ∀ v ∈ l, v ≤ m := by
  cases l with
  | nil => simp [maxQ] at h
  | cons v vs =>
    simp only [maxQ, Option.some.injEq] at h
    subst h
    intro w hw
    rcases List.mem_cons.1 hw with rfl | hw
    · exact (le_maxFold vs w).1
    · exact (le_maxFold vs v).2 w hw

theorem minFold_mem (vs : List ℚ) (acc : ℚ) :
    vs.foldl (fun m s => if s < m then s else m) acc ∈ acc :: vs := by
  induction vs generalizing acc with
  | nil => simp
  | cons v vs ih =>
    simp only [List.foldl_cons]
    rcases List.mem_cons.1 (ih (if v < acc then v else acc)) with h | h
    · by_cases hv : v < acc <;> simp [hv] at h <;> simp [hv, h]
    · simp [h]

theorem minFold_le (vs : List ℚ) (acc : ℚ) :
    vs.foldl (fun m s => if s < m then s else m) acc ≤ acc ∧
      ∀ v ∈ vs, vs.foldl (fun m s => if s < m then s else m) acc ≤ v := by
  induction vs generalizing acc with
  | nil => simp
  | cons v vs ih =>
    simp only [List.foldl_cons]
    obtain ⟨h1, h2⟩ := ih (if v < acc then v else acc)
    refine ⟨?_, ?_⟩
    · refine le_trans h1 ?_
      by_cases hv : v < acc <;> simp [hv]
      · exact le_of_lt hv
    · intro w hw
      rcases List.mem_cons.1 hw with rfl | hw
      · refine le_trans h1 ?_
        by_cases hv : w < acc
        · simp [hv]
        · simp only [if_neg hv]
          exact le_of_not_lt hv
      · exact h2 w hw

theorem minQ_mem {l : List ℚ} {m : ℚ} (h : minQ l = some m) : m ∈ l := by
  cases l with
  | nil => simp [minQ] at h
  | cons v vs =>
    simp only [minQ, Option.some.injEq] at h
    subst h
    exact minFold_mem vs v

theorem minQ_le {l : List ℚ} {m : ℚ} (h : minQ l = some m) : ∀ v ∈ l, m ≤ v := by
  cases l with
  | nil => simp [minQ] at h
  | cons v vs =>
    simp only [minQ, Option.some.injEq] at h
    subst h
    intro w hw
    rcases List.mem_cons.1 hw with rfl | hw
    · exact (minFold_le vs w).1
    · exact (minFold_le vs v).2 w hw

/-! ## Rounding lemmas -/

theorem pyRound_intCast (n : ℤ) : pyRound (n : ℚ) = n := by
  have hf : ⌊(n : ℚ)⌋ = n := Int.floor_intCast n
  simp only [pyRound, hf]
  norm_num

theorem pyRound_le_of_le {q : ℚ} {N : ℤ} (h : q ≤ (N : ℚ)) : pyRound q ≤ N := by
  have hfl : ⌊q⌋ ≤ N := by
    rw [Int.floor_le_iff]
    refine lt_of_le_of_lt h ?_
    norm_num
  simp only [pyRound]
  split_ifs with h1 h2 h3
  · -- q - ⌊q⌋ > 1/2, so q is not an integer and ⌊q⌋ < q ≤ N
    have hlt : (⌊q⌋ : ℚ) < q := by linarith
    have : ⌊q⌋ < N := by
      by_contra hc
      push_neg at hc
      have : N ≤ ⌊q⌋ := hc
      have heq : ⌊q⌋ = N := le_antisymm hfl this
      rw [heq] at hlt
      linarith
    omega
  · exact hfl
  · exact hfl
  · have hlt : (⌊q⌋ : ℚ) < q := by linarith
    have : ⌊q⌋ < N := by
      by_contra hc
      push_neg at hc
      have heq : ⌊q⌋ = N := le_antisymm hfl hc
      rw [heq] at hlt
      linarith
    omega

theorem le_pyRound_of_le {q : ℚ} {N : ℤ} (h : (N : ℚ) ≤ q) : N ≤ pyRound q := by
  have hfl : N ≤ ⌊q⌋ := Int.le_floor.2 h
  simp only [pyRound]
  split_ifs <;> omega

/-! ## Hash table lemmas -/

theorem probeFrom_spec {slots : List (Option ℤ)} :
    ∀ {fuel i p j : ℕ}, probeFrom slots fuel i p = some j → slots.get? j = some none := by
  intro fuel
  induction fuel with
  | zero => intro i p j h; simp [probeFrom] at h
  | succ n ih =>
    intro i p j h
    rw [probeFrom] at h
    cases hg : slots.get? i with
    | none => rw [hg] at h; exact ih h
    | some o =>
      cases o with
      | none =>
        rw [hg] at h
        simp at h
        subst h
        exact hg
      | some k => rw [hg] at h; exact ih h

theorem findIdx?_isNone_spec {slots : List (Option ℤ)} {j : ℕ}
    (h : slots.findIdx? (fun s => s.isNone) = some j) : slots.get? j = some none := by
  rw [List.findIdx?_eq_some_iff_getElem] at h
  obtain ⟨hj, hp, h3⟩ := h
  have hn : slots[j] = none := Option.isNone_iff_eq_none.1 hp
  rw [List.get?_eq_getElem?, List.getElem?_eq_getElem hj, hn]

theorem filterMap_id_length_eq {slots : List (Option ℤ)}
    (h : ∀ x ∈ slots, x ≠ none) : (slots.filterMap id).length = slots.length := by
  induction slots with
  | nil => simp
  | cons x t ih =>
    cases x with
    | none => exact absurd rfl (h none (by simp))
    | some a =>
      simp only [List.filterMap_cons, id, List.length_cons]
      simp [ih (fun x hx => h x (List.mem_cons_of_mem _ hx))]

theorem findIdx?_isNone_total {slots : List (Option ℤ)}
    (h : (slots.filterMap id).length < slots.length) :
    ∃ j, slots.findIdx? (fun s => s.isNone) = some j := by
  cases hf : slots.findIdx? (fun s => s.isNone) with
  | some j => exact ⟨j, rfl⟩
  | none =>
    rw [List.findIdx?_eq_none_iff] at hf
    have hns : ∀ x ∈ slots, x ≠ none := by
      intro x hx hn
      have := hf x hx
      rw [hn] at this
      simp at this
    rw [filterMap_id_length_eq hns] at h
    exact absurd h (lt_irrefl _)

theorem filterMap_set_perm {slots : List (Option ℤ)} :
    ∀ {j : ℕ}, slots.get? j = some none → ∀ k : ℤ,
      ((slots.set j (some k)).filterMap id).Perm (k :: slots.filterMap id) := by
  induction slots with
  | nil => intro j h k; simp at h
  | cons x t ih =>
    intro j h k
    cases j with
    | zero =>
      simp only [List.get?] at h
      cases h
      simp [List.set]
    | succ j =>
      simp only [List.get?] at h
      cases x with
      | none =>
        simpa [List.set, List.filterMap_cons] using ih h k
      | some a =>
        simp only [List.set, List.filterMap_cons, id]
        refine List.Perm.trans (List.Perm.cons a (ih h k)) ?_
        exact List.Perm.swap k a _

theorem findSlot_spec {slots : List (Option ℤ)} {k : ℤ}
    (h : (slots.filterMap id).length < slots.length) :
    ∃ j, findSlot slots k = some j ∧ slots.get? j = some none := by
  rw [findSlot]
  cases hp : probeFrom slots (slots.length + 64)
      ((((pyHashInt k) % (2 : ℤ) ^ 64).toNat) % slots.length) (((pyHashInt k) % (2 : ℤ) ^ 64).toNat) with
  | some i => exact ⟨i, rfl, probeFrom_spec hp⟩
  | none =>
    obtain ⟨j, hj⟩ := findIdx?_isNone_total h
    exact ⟨j, by simp [hj], findIdx?_isNone_spec hj⟩

theorem insertRaw_spec {slots : List (Option ℤ)} {k : ℤ}
    (h : (slots.filterMap id).length < slots.length) :
    ((insertRaw slots k).filterMap id).Perm (k :: slots.filterMap id) ∧
      (insertRaw slots k).length = slots.length := by
  obtain ⟨j, hfind, hget⟩ := findSlot_spec (k := k) h
  rw [insertRaw, hfind]
  exact ⟨filterMap_set_perm hget k, List.length_set slots j _⟩

theorem insertList_spec :
    ∀ (ks : List ℤ) (t : List (Option ℤ)),
      (t.filterMap id).length + ks.length ≤ t.length →
      ((ks.foldl insertRaw t).filterMap id).Perm (ks ++ t.filterMap id) ∧
        (ks.foldl insertRaw t).length = t.length
  | [], t, h => by simp
  | k :: ks, t, h => by
    simp only [List.foldl_cons]
    have hlt : (t.filterMap id).length < t.length := by
      simp only [List.length_cons] at h
      omega
    obtain ⟨hperm, hlen⟩ := insertRaw_spec (k := k) hlt
    have hcount : ((insertRaw t k).filterMap id).length = (t.filterMap id).length + 1 := by
      rw [hperm.length_eq]
      simp
    have hrec := insertList_spec ks (insertRaw t k) (by
      rw [hcount, hlen]
      simp only [List.length_cons] at h
      omega)
    refine ⟨?_, hrec.2.trans hlen⟩
    refine hrec.1.trans ?_
    refine List.Perm.trans (List.Perm.append_left ks hperm) ?_
    exact List.perm_middle

theorem growLoop_gt : ∀ (fuel acc minused : ℕ), minused < fuel + acc → 0 < acc →
    minused < growLoop minused fuel acc
  | 0, acc, minused, h, ha => by
    simpa [growLoop] using h
  | fuel + 1, acc, minused, h, ha => by
    rw [growLoop]
    split_ifs with hle
    · exact growLoop_gt fuel (2 * acc) minused (by omega) (by omega)
    · omega

theorem filterMap_replicate_none (n : ℕ) :
    ((List.replicate n (none : Option ℤ)).filterMap id) = [] := by
  induction n with
  | zero => simp
  | succ n ih => simp [List.replicate_succ, List.filterMap_cons, ih]

theorem growLoop_ge_acc : ∀ (fuel acc minused : ℕ), acc ≤ growLoop minused fuel acc
  | 0, acc, minused => Nat.le_refl acc
  | fuel + 1, acc, minused => by
    rw [growLoop]
    split_ifs with h
    · exact le_trans (by omega) (growLoop_ge_acc fuel (2 * acc) minused)
    · exact Nat.le_refl acc

theorem dictResize_spec (slots : List (Option ℤ)) :
    ((dictResize slots).filterMap id).Perm (slots.filterMap id) ∧
      2 * (slots.filterMap id).length + 1 ≤ (dictResize slots).length ∧
      8 ≤ (dictResize slots).length := by
  rw [dictResize]
  set used := (slots.filterMap id).length with hused
  set minused := 2 * used + slots.length / 2 with hminused
  set newsize := growLoop minused (minused + 1) 8 with hnewsize
  have hgrow : minused < newsize := growLoop_gt (minused + 1) 8 minused (by omega) (by omega)
  have hge8 : 8 ≤ newsize := growLoop_ge_acc (minused + 1) 8 minused
  obtain ⟨hperm, hlen⟩ := insertList_spec (slots.filterMap id) (List.replicate newsize none) (by
    rw [filterMap_replicate_none, List.length_replicate]
    simp only [List.length_nil]
    omega)
  rw [filterMap_replicate_none, List.append_nil] at hperm
  refine ⟨hperm, ?_, ?_⟩
  · rw [hlen, List.length_replicate]
    omega
  · rw [hlen, List.length_replicate]
    exact hge8

theorem dictInsertNew_spec {slots : List (Option ℤ)} (k : ℤ)
    (hcnt : (slots.filterMap id).length ≤ usableFraction slots.length)
    (hsz : 8 ≤ slots.length) :
    ((dictInsertNew slots k).filterMap id).Perm (k :: slots.filterMap id) ∧
      ((dictInsertNew slots k).filterMap id).length
        ≤ usableFraction (dictInsertNew slots k).length ∧
      8 ≤ (dictInsertNew slots k).length := by
  rw [dictInsertNew]
  split_ifs with htrig
  · have hlt : (slots.filterMap id).length < slots.length := by
      simp only [usableFraction] at htrig
      omega
    obtain ⟨hperm, hlen⟩ := insertRaw_spec (k := k) hlt
    refine ⟨hperm, ?_, ?_⟩
    · rw [hperm.length_eq, List.length_cons, hlen]
      exact htrig
    · rw [hlen]
      exact hsz
  · obtain ⟨hrperm, hrsz, hr8⟩ := dictResize_spec slots
    have hcnt2 : ((dictResize slots).filterMap id).length = (slots.filterMap id).length :=
      hrperm.length_eq
    have hlt : ((dictResize slots).filterMap id).length < (dictResize slots).length := by
      omega
    obtain ⟨hperm, hlen⟩ := insertRaw_spec (k := k) hlt
    refine ⟨hperm.trans (List.Perm.cons k hrperm), ?_, ?_⟩
    · rw [hperm.length_eq, List.length_cons, hcnt2, hlen]
      simp only [usableFraction]
      omega
    · rw [hlen]
      exact hr8

theorem foldl_dictInsertNew_perm :
    ∀ (ks : List ℤ) (slots : List (Option ℤ)),
      (slots.filterMap id).length ≤ usableFraction slots.length → 8 ≤ slots.length →
      ((ks.foldl dictInsertNew slots).filterMap id).Perm (ks ++ slots.filterMap id)
  | [], slots, h1, h2 => by simp
  | k :: ks, slots, h1, h2 => by
    simp only [List.foldl_cons]
    obtain ⟨hperm, hcnt, hsz⟩ := dictInsertNew_spec k h1 h2
    have hrec := foldl_dictInsertNew_perm ks (dictInsertNew slots k) hcnt hsz
    refine hrec.trans ?_
    refine List.Perm.trans (List.Perm.append_left ks hperm) ?_
    exact List.perm_middle

/-- The CPython 3.5 dict iterates each inserted key exactly once: the slot-order
key list is a permutation of the first-insertion key list. -/
theorem py35DictOrder_perm (keys : List ℤ) : (py35DictOrder keys).Perm keys := by
  rw [py35DictOrder]
  have := foldl_dictInsertNew_perm keys (List.replicate 8 none)
    (by rw [filterMap_replicate_none]; simp [usableFraction]) (by simp)
  simpa [filterMap_replicate_none] using this

/-! ## Normalization stage lemmas -/

theorem normalizeStage_eq {ag : List (ℤ × ℚ)} {mx mn : ℚ}
    (hmx : maxQ (ag.map Prod.snd) = some mx) (hmn : minQ (ag.map Prod.snd) = some mn) :
    normalizeStage ag = (py35DictOrder (ag.map Prod.fst)).map (fun c =>
      (c, get_quartile_label (normScore mx mn ((lookupQ c ag).getD 0)),
        normScore mx mn ((lookupQ c ag).getD 0))) := by
  rw [normalizeStage, hmx, hmn]

theorem normalizeStage_extremes {ag : List (ℤ × ℚ)} (hne : ag ≠ []) :
    ∃ mx mn, maxQ (ag.map Prod.snd) = some mx ∧ minQ (ag.map Prod.snd) = some mn ∧
      mx ∈ ag.map Prod.snd ∧ mn ∈ ag.map Prod.snd ∧
      (∀ v ∈ ag.map Prod.snd, v ≤ mx) ∧ (∀ v ∈ ag.map Prod.snd, mn ≤ v) := by
  cases ag with
  | nil => exact absurd rfl hne
  | cons hd tl =>
    cases hmx : maxQ ((hd :: tl).map Prod.snd) with
    | none => simp [maxQ] at hmx
    | some mx =>
      cases hmn : minQ ((hd :: tl).map Prod.snd) with
      | none => simp [minQ] at hmn
      | some mn =>
        exact ⟨mx, mn, rfl, rfl, maxQ_mem hmx, minQ_mem hmn, le_maxQ hmx, minQ_le hmn⟩

theorem mem_normalizeStage {ag : List (ℤ × ℚ)} {e : ℤ × String × ℤ}
    (he : e ∈ normalizeStage ag) :
    ∃ mx mn, maxQ (ag.map Prod.snd) = some mx ∧ minQ (ag.map Prod.snd) = some mn ∧
      ∃ c ∈ ag.map Prod.fst, ∃ v, lookupQ c ag = some v ∧
        e = (c, get_quartile_label (normScore mx mn v), normScore mx mn v) := by
  have hne : ag ≠ [] := by
    rintro rfl
    simp [normalizeStage, maxQ, minQ] at he
  obtain ⟨mx, mn, hmx, hmn, _, _, _, _⟩ := normalizeStage_extremes hne
  rw [normalizeStage_eq hmx hmn] at he
  obtain ⟨c, hc, rfl⟩ := List.mem_map.1 he
  have hck : c ∈ ag.map Prod.fst := ((py35DictOrder_perm (ag.map Prod.fst)).mem_iff).1 hc
  obtain ⟨v, hv⟩ := Option.isSome_iff_exists.1 ((lookupQ_isSome_iff c ag).2 hck)
  exact ⟨mx, mn, hmx, hmn, c, hck, v, hv, by rw [hv]; simp⟩

theorem normalizeStage_key_mem {ag : List (ℤ × ℚ)} {c : ℤ} (hc : c ∈ ag.map Prod.fst)
    {mx mn : ℚ} (hmx : maxQ (ag.map Prod.snd) = some mx)
    (hmn : minQ (ag.map Prod.snd) = some mn) :
    (c, get_quartile_label (normScore mx mn ((lookupQ c ag).getD 0)),
      normScore mx mn ((lookupQ c ag).getD 0)) ∈ normalizeStage ag := by
  rw [normalizeStage_eq hmx hmn]
  refine List.mem_map_of_mem _ ?_
  exact ((py35DictOrder_perm (ag.map Prod.fst)).mem_iff).2 hc

/-! # Claims -/

/-- Claim C1. For every raw row, `parse_row` either returns the typed record
(int of field 0, field 1, float of field 2) or fails with exactly one of four
reasons checked in this fixed order and short-circuiting: `MalformedRow` when
the row has fewer than 3 fields; otherwise `BadContactId` when field 0 is not
parseable as an integer; otherwise `UnknownEventType` when field 1 is not one
of web, email, social, webinar; otherwise `BadScore` when field 2 is not
parseable as a float.  A row triggering several conditions reports only the
first applicable reason. -/
theorem parse_row_error_order (row : List String) :
    (row.length < 3 → parse_row row = Except.error ValidationError.malformedRow)
  ∧ (∀ a b c rest, row = a :: b :: c :: rest →
      (pyParseInt a = none → parse_row row = Except.error ValidationError.badContactId)
    ∧ (∀ ia, pyParseInt a = some ia → b ∉ EVENT_TYPES →
        parse_row row = Except.error ValidationError.unknownEventType)
    ∧ (∀ ia, pyParseInt a = some ia → b ∈ EVENT_TYPES → pyParseFloat c = none →
        parse_row row = Except.error ValidationError.badScore)
    ∧ (∀ ia q, pyParseInt a = some ia → b ∈ EVENT_TYPES → pyParseFloat c = some q →
        parse_row row
          = Except.ok (PyVal.i ia :: PyVal.s b :: PyVal.f q :: rest.map PyVal.s))) := by
  constructor
  · intro hlen
    match row, hlen with
    | [], _ => rfl
    | [a], _ => rfl
    | [a, b], _ => rfl
    | a :: b :: c :: rest, h => simp at h; omega
  · rintro a b c rest rfl
    refine ⟨?_, ?_, ?_, ?_⟩
    · intro hint
      simp [parse_row, parse_rowS, hint]
    · intro ia hint hb
      simp [parse_row, parse_rowS, hint, hb]
    · intro ia hint hb hfl
      simp [parse_row, parse_rowS, hint, hb, hfl]
    · intro ia q hint hb hfl
      simp [parse_row, parse_rowS, hint, hb, hfl]

unseal Rat.add Rat.mul Rat.inv in
/-- Witness for C1: the four failing rows of `test_parse_row` report exactly
the documented reasons, and the valid row parses to the typed record. -/
theorem parse_row_error_order_witness :
    parse_row ["1"] = Except.error ValidationError.malformedRow
  ∧ parse_row ["qw", "web", "23.45"] = Except.error ValidationError.badContactId
  ∧ parse_row ["1", "people", "23.45"] = Except.error ValidationError.unknownEventType
  ∧ parse_row ["1", "web", ""] = Except.error ValidationError.badScore
  ∧ parse_row ["1", "web", "23.45"]
      = Except.ok [PyVal.i 1, PyVal.s "web", PyVal.f (469/20)] :=
  ⟨(parse_row_error_order ["1"]).1 (by decide),
   ((parse_row_error_order ["qw", "web", "23.45"]).2 "qw" "web" "23.45" [] rfl).1 (by decide),
   ((parse_row_error_order ["1", "people", "23.45"]).2 "1" "people" "23.45" [] rfl).2.1 1
     (by decide) (by decide),
   ((parse_row_error_order ["1", "web", ""]).2 "1" "web" "" [] rfl).2.2.1 1
     (by decide) (by decide) (by decide),
   ((parse_row_error_order ["1", "web", "23.45"]).2 "1" "web" "23.45" [] rfl).2.2.2 1 (469/20)
     (by decide) (by decide) (by decide)⟩

/-- Claim C2. The final aggregate maps each contact id to the sum, over all rows
that pass validation and carry that contact id, of `score * weight(event_type)`
with weights web=1.0, email=1.2 (= 6/5), social=1.5, webinar=2.0; the first
contribution initializes the total and later ones accumulate additively (the
sum below folds them in stream order). -/
theorem aggregate_weighted_sums :
    (∀ (rows : List (List String)) (ag : List (ℤ × ℚ)), aggregateOf rows [] = some ag →
      ∀ c : ℤ,
        lookupQ c ag =
          if (rows.filterMap parsedRecord).any (fun r => r.1 = c) then some (contribSum c rows)
          else none)
  ∧ factorOf "web" = 1 ∧ factorOf "email" = 6/5 ∧ factorOf "social" = 3/2
  ∧ factorOf "webinar" = 2 :=
  ⟨fun _ _ h c => aggregateOf_lookup_nil h c, rfl, rfl, rfl, rfl⟩

set_option maxRecDepth 10000 in
unseal Rat.add Rat.mul Rat.inv Rat.sub in
/-- Witness for C2, on the row stream of `test_process_file`: contact 2's total
is its single webinar contribution 55.4 * 2.0 = 110.8 and contact 7 (no valid
row) is absent from the aggregate. -/
theorem aggregate_weighted_sums_witness :
    lookupQ 2 [(1, 3433/100), (3, 154/5), (2, 554/5)] = some (554/5)
  ∧ lookupQ 7 [(1, 3433/100), (3, 154/5), (2, 554/5)] = none := by
  have h := aggregate_weighted_sums.1
    [["1", "web", "34.33"], ["", "webinar", "55.4"], ["3", "webinar", "15.4"],
      ["2", "webinar", "55.4"]]
    [(1, 3433/100), (3, 154/5), (2, 554/5)] (by decide)
  constructor
  · have h2 := h 2
    rw [if_pos (by decide)] at h2
    rw [h2]
    decide
  · have h7 := h 7
    rw [if_neg (by decide)] at h7
    exact h7

/-- Claim C3. When all contacts have the same aggregated score (including the
single-contact case), every normalized score emitted by the pipeline is
exactly 0. -/
theorem equal_scores_normalize_zero {rows : List (List String)} {ag : List (ℤ × ℚ)}
    {out : List (ℤ × String × ℤ)}
    (hag : aggregateOf rows [] = some ag) (hout : process_file rows = some out)
    (heq : ∀ v ∈ ag.map Prod.snd, ∀ w ∈ ag.map Prod.snd, v = w) :
    ∀ e ∈ out, e.2.2 = 0 := by
  rw [process_file, hag, Option.map_some'] at hout
  have hout2 : normalizeStage ag = out := Option.some.inj hout
  subst hout2
  intro e he
  obtain ⟨mx, mn, hmx, hmn, c, hck, v, hv, rfl⟩ := mem_normalizeStage he
  have hmt : mx = mn := heq mx (maxQ_mem hmx) mn (minQ_mem hmn)
  simp [normScore, hmt]

set_option maxRecDepth 10000 in
unseal Rat.add Rat.mul Rat.inv Rat.sub in
/-- Witness for C3, the input of `test_process_file_with_eqauls_scores`: two
contacts tied at 34.33 both normalize to 0. -/
theorem equal_scores_normalize_zero_witness :
    process_file [["1", "web", "34.33"], ["2", "web", "34.33"]]
      = some [(1, "bronze", 0), (2, "bronze", 0)]
  ∧ ∀ e ∈ [((1:ℤ), "bronze", (0:ℤ)), (2, "bronze", 0)], e.2.2 = 0 := by
  refine ⟨by decide, ?_⟩
  exact @equal_scores_normalize_zero [["1", "web", "34.33"], ["2", "web", "34.33"]]
    [(1, 3433/100), (2, 3433/100)] [(1, "bronze", 0), (2, "bronze", 0)]
    (by decide) (by decide) (by decide)

set_option maxRecDepth 10000 in
unseal Rat.add Rat.mul Rat.inv Rat.sub in
/-- Counterexample to claim C4. On the stream `1,web,0 / 2,web,8 / 3,web,1` the
aggregate is `{1:0, 2:8, 3:1}` (min 0, max 8) and contact 3's exact ratio
`(1-0)/(8-0)*100 = 12.5` is emitted as 12 by the pipeline (Python 3 `round`,
ties to even; 12.5 is exactly representable as a double, so the float
computation is exact), while rounding half away from zero would give 13. -/
theorem normalized_rounding_counterexample :
    process_file [["1", "web", "0"], ["2", "web", "8"], ["3", "web", "1"]]
      = some [(1, "bronze", 0), (2, "platinum", 100), (3, "bronze", 12)]
  ∧ ((1 : ℚ) - 0) / (8 - 0) * 100 = 25/2
  ∧ roundHalfAway (25/2) = 13
  ∧ pyRound (25/2) = 12
  ∧ (12 : ℤ) ≠ 13 := by
  refine ⟨by decide, by decide, by decide, by decide, by decide⟩

/-- Claim C4 as amended. For every aggregate with `max_score ≠ min_score`, each
emitted normalized score equals the round-to-nearest-integer of
`(score - min_score) / (max_score - min_score) * 100` where exact halves round
to the even neighbour (Python 3 `round`), not away from zero. -/
theorem normalized_round_half_even {rows : List (List String)} {ag : List (ℤ × ℚ)}
    {out : List (ℤ × String × ℤ)} {mx mn : ℚ}
    (hag : aggregateOf rows [] = some ag) (hout : process_file rows = some out)
    (hmx : maxQ (ag.map Prod.snd) = some mx) (hmn : minQ (ag.map Prod.snd) = some mn)
    (hne : mx ≠ mn) :
    ∀ e ∈ out, ∃ v, lookupQ e.1 ag = some v ∧
      e.2.2 = pyRound ((v - mn) / (mx - mn) * 100) := by
  rw [process_file, hag, Option.map_some'] at hout
  have hout2 : normalizeStage ag = out := Option.some.inj hout
  subst hout2
  intro e he
  obtain ⟨mx', mn', hmx', hmn', c, hck, v, hv, rfl⟩ := mem_normalizeStage he
  rw [hmx] at hmx'
  rw [hmn] at hmn'
  cases hmx'
  cases hmn'
  exact ⟨v, hv, by simp [normScore, hne]⟩

set_option maxRecDepth 10000 in
unseal Rat.add Rat.mul Rat.inv Rat.sub in
/-- Witness for the amended C4 at the counterexample stream: contact 3 gets
`pyRound 12.5 = 12`. -/
theorem normalized_round_half_even_witness :
    ∃ v, lookupQ 3 [((1:ℤ), (0:ℚ)), (2, 8), (3, 1)] = some v ∧
      (12 : ℤ) = pyRound ((v - 0) / (8 - 0) * 100) := by
  have h := @normalized_round_half_even
    [["1", "web", "0"], ["2", "web", "8"], ["3", "web", "1"]]
    [(1, 0), (2, 8), (3, 1)]
    [(1, "bronze", 0), (2, "platinum", 100), (3, "bronze", 12)]
    8 0
    (by decide) (by decide) (by decide) (by decide) (by decide)
  exact h (3, "bronze", 12) (by decide)

set_option maxRecDepth 10000 in
unseal Rat.add Rat.mul Rat.inv Rat.sub in
/-- Claim C5, settling it as a code bug. A row with a fourth trailing field whose first three
fields pass validation is *not* processed as if it had three fields:
`parse_row` succeeds and returns the whole 4-element row, and the 3-variable
destructuring in `process_file` raises an uncaught `ValueError` (not a
`ValidationError`), aborting the entire run (`none`) — whereas the same row
without the extra field yields a normal report. -/
theorem extra_fields_abort :
    parse_row ["1", "web", "2.5", "x"]
      = Except.ok [PyVal.i 1, PyVal.s "web", PyVal.f (5/2), PyVal.s "x"]
  ∧ process_file [["1", "web", "2.5", "x"]] = none
  ∧ process_file [["1", "web", "2.5"]] = some [(1, "bronze", 0)] := by
  refine ⟨by decide, by decide, by decide⟩

/-- Claim C6. For every integer score, the quartile label is the band whose
inclusive range contains it — platinum 75–100, gold 50–74, silver 25–49,
bronze 0–24 — and any score outside `[0, 100]` yields the empty label (no
exception). -/
theorem quartile_label_bands (score : ℤ) :
    (75 ≤ score → score ≤ 100 → get_quartile_label score = "platinum")
  ∧ (50 ≤ score → score ≤ 74 → get_quartile_label score = "gold")
  ∧ (25 ≤ score → score ≤ 49 → get_quartile_label score = "silver")
  ∧ (0 ≤ score → score ≤ 24 → get_quartile_label score = "bronze")
  ∧ (score < 0 ∨ 100 < score → get_quartile_label score = "") := by
  rw [get_quartile_label_eq]
  refine ⟨?_, ?_, ?_, ?_, ?_⟩
  · intro h1 h2
    rw [if_pos ⟨h1, h2⟩]
  · intro h1 h2
    rw [if_neg (by omega), if_pos ⟨h1, h2⟩]
  · intro h1 h2
    rw [if_neg (by omega), if_neg (by omega), if_pos ⟨h1, h2⟩]
  · intro h1 h2
    rw [if_neg (by omega), if_neg (by omega), if_neg (by omega), if_pos ⟨h1, h2⟩]
  · intro h
    rw [if_neg (by omega), if_neg (by omega), if_neg (by omega), if_neg (by omega)]

/-- Witness for C6 at the boundary scores of the specification: 75, 74, 25, 24
and the out-of-range 120 and -5. -/
theorem quartile_label_bands_witness :
    get_quartile_label 75 = "platinum"
  ∧ get_quartile_label 74 = "gold"
  ∧ get_quartile_label 25 = "silver"
  ∧ get_quartile_label 24 = "bronze"
  ∧ get_quartile_label 120 = ""
  ∧ get_quartile_label (-5) = "" :=
  ⟨(quartile_label_bands 75).1 (by decide) (by decide),
   (quartile_label_bands 74).2.1 (by decide) (by decide),
   (quartile_label_bands 25).2.2.1 (by decide) (by decide),
   (quartile_label_bands 24).2.2.2.1 (by decide) (by decide),
   (quartile_label_bands 120).2.2.2.2 (Or.inr (by decide)),
   (quartile_label_bands (-5)).2.2.2.2 (Or.inl (by decide))⟩

set_option maxRecDepth 10000 in
unseal Rat.add Rat.mul Rat.inv Rat.sub in
/-- Counterexample to claim C7. On the row stream of `test_process_file` the
first-seen order of contact ids with a valid contribution is `1, 3, 2` (the
second row fails validation), yet the pipeline emits `1, 2, 3` — the
hash-slot iteration order of the pinned CPython 3.5 dict, and exactly the
order the repository's own test asserts — so report entries are *not* emitted
in first-seen order. -/
theorem report_order_counterexample :
    aggregateOf [["1", "web", "34.33"], ["", "webinar", "55.4"], ["3", "webinar", "15.4"],
        ["2", "webinar", "55.4"]] []
      = some [(1, 3433/100), (3, 154/5), (2, 554/5)]
  ∧ [((1:ℤ), (3433/100:ℚ)), (3, 154/5), (2, 554/5)].map Prod.fst = [1, 3, 2]
  ∧ process_file [["1", "web", "34.33"], ["", "webinar", "55.4"], ["3", "webinar", "15.4"],
        ["2", "webinar", "55.4"]]
      = some [(1, "bronze", 4), (2, "platinum", 100), (3, "bronze", 0)]
  ∧ [((1:ℤ), "bronze", (4:ℤ)), (2, "platinum", 100), (3, "bronze", 0)].map (fun e => e.1)
      = [1, 2, 3]
  ∧ ([1, 2, 3] : List ℤ) ≠ [1, 3, 2] := by
  refine ⟨by decide, by decide, by decide, by decide, by decide⟩

/-- Claim C7 as amended. The pipeline emits exactly one report entry per distinct
contact id that had at least one valid row — but in the iteration order of the
CPython 3.5 aggregate dict (hash-slot order, as modelled by `py35DictOrder` on
the first-seen id sequence), which need not be first-seen order; rows failing
validation are skipped without aborting the run; and an input with no valid
rows (e.g. an empty stream) yields an empty report rather than an error. -/
theorem report_entries_shape :
    (∀ (rows : List (List String)) (ag : List (ℤ × ℚ)) (out : List (ℤ × String × ℤ)),
      aggregateOf rows [] = some ag → process_file rows = some out →
        out.map (fun e => e.1) = py35DictOrder (ag.map Prod.fst)
      ∧ (out.map (fun e => e.1)).Perm (ag.map Prod.fst)
      ∧ (ag.map Prod.fst).Nodup
      ∧ (∀ c ∈ ag.map Prod.fst, (out.map (fun e => e.1)).count c = 1)
      ∧ (∀ c : ℤ, c ∈ ag.map Prod.fst ↔ ∃ r ∈ rows, ∃ b q, parsedRecord r = some (c, b, q)))
  ∧ (∀ (row : List String) (rows : List (List String)) (e : ValidationError),
      parse_row row = Except.error e → process_file (row :: rows) = process_file rows)
  ∧ process_file [] = some [] := by
  refine ⟨?_, ?_, ?_⟩
  · intro rows ag out hag hout
    rw [process_file, hag, Option.map_some'] at hout
    have hout2 : normalizeStage ag = out := Option.some.inj hout
    subst hout2
    have hnodup : (ag.map Prod.fst).Nodup := aggregateOf_keys_nodup hag (by simp)
    have hids : (normalizeStage ag).map (fun e => e.1) = py35DictOrder (ag.map Prod.fst) := by
      cases hag0 : ag with
      | nil =>
        simp [normalizeStage, maxQ, minQ, py35DictOrder, filterMap_replicate_none]
      | cons hd tl =>
        obtain ⟨mx, mn, hmx, hmn, _, _, _, _⟩ :=
          @normalizeStage_extremes (hd :: tl) (by simp)
        rw [normalizeStage_eq hmx hmn, List.map_map]
        simp [Function.comp_def]
    have hperm : ((normalizeStage ag).map (fun e => e.1)).Perm (ag.map Prod.fst) := by
      rw [hids]
      exact py35DictOrder_perm (ag.map Prod.fst)
    refine ⟨hids, hperm, hnodup, ?_, aggregateOf_mem_keys hag⟩
    intro c hc
    rw [hperm.count_eq]
    exact List.count_eq_one_of_mem hnodup hc
  · intro row rows e hp
    rw [process_file, process_file, aggregateOf_skip hp]
  · rfl

set_option maxRecDepth 10000 in
unseal Rat.add Rat.mul Rat.inv Rat.sub in
/-- Witness for the amended C7 on the `test_process_file` stream: ids `1, 3, 2`
first-seen; emitted ids `1, 2, 3` = `py35DictOrder [1, 3, 2]`, a permutation of
the distinct valid ids; a malformed row is skipped; the empty stream yields an
empty report. -/
theorem report_entries_shape_witness :
    [((1:ℤ), "bronze", (4:ℤ)), (2, "platinum", 100), (3, "bronze", 0)].map (fun e => e.1)
      = py35DictOrder ([((1:ℤ), (3433/100:ℚ)), (3, 154/5), (2, 554/5)].map Prod.fst)
  ∧ process_file (["", "webinar", "55.4"] :: [["1", "web", "2"]])
      = process_file [["1", "web", "2"]]
  ∧ process_file [] = some [] := by
  have h := report_entries_shape
  refine ⟨?_, ?_, h.2.2⟩
  · exact (h.1 [["1", "web", "34.33"], ["", "webinar", "55.4"], ["3", "webinar", "15.4"],
      ["2", "webinar", "55.4"]] [(1, 3433/100), (3, 154/5), (2, 554/5)]
      [(1, "bronze", 4), (2, "platinum", 100), (3, "bronze", 0)] (by decide) (by decide)).1
  · exact h.2.1 ["", "webinar", "55.4"] [["1", "web", "2"]] ValidationError.badContactId
      (by decide)

/-- Claim C8. Every normalized score emitted by the pipeline lies in `[0, 100]`,
so the degenerate empty-label branch of `get_quartile_label` is unreachable
from the pipeline and every report entry carries a non-empty label. -/
theorem normalized_in_range {rows : List (List String)} {out : List (ℤ × String × ℤ)}
    (hout : process_file rows = some out) :
    ∀ e ∈ out, 0 ≤ e.2.2 ∧ e.2.2 ≤ 100 ∧ e.2.1 ≠ "" := by
  rw [process_file] at hout
  cases hag : aggregateOf rows [] with
  | none => rw [hag] at hout; simp at hout
  | some ag =>
    rw [hag, Option.map_some'] at hout
    have hout2 : normalizeStage ag = out := Option.some.inj hout
    subst hout2
    intro e he
    obtain ⟨mx, mn, hmx, hmn, c, hck, v, hv, rfl⟩ := mem_normalizeStage he
    have hb : 0 ≤ normScore mx mn v ∧ normScore mx mn v ≤ 100 := by
      by_cases hmm : mx = mn
      · simp [normScore, hmm]
      · have hvmem : v ∈ ag.map Prod.snd := List.mem_map_of_mem Prod.snd (lookupQ_mem hv)
        have hvmx : v ≤ mx := le_maxQ hmx v hvmem
        have hmnv : mn ≤ v := minQ_le hmn v hvmem
        have hmnmx : mn < mx := by
          rcases lt_or_eq_of_le (le_trans hmnv hvmx) with h | h
          · exact h
          · exact absurd h.symm hmm
        have hd : (0:ℚ) < mx - mn := by linarith
        have hr0 : (0:ℚ) ≤ (v - mn) / (mx - mn) := div_nonneg (by linarith) (le_of_lt hd)
        have hr1 : (v - mn) / (mx - mn) ≤ 1 := (div_le_one hd).2 (by linarith)
        constructor
        · simp only [normScore, if_neg hmm]
          exact le_pyRound_of_le (by push_cast; nlinarith)
        · simp only [normScore, if_neg hmm]
          exact pyRound_le_of_le (by push_cast; nlinarith)
    exact ⟨hb.1, hb.2, get_quartile_label_ne_empty hb.1 hb.2⟩

set_option maxRecDepth 10000 in
unseal Rat.add Rat.mul Rat.inv Rat.sub in
/-- Witness for C8 on the `test_process_file` stream: all three emitted entries
have normalized scores in `[0, 100]` and non-empty labels. -/
theorem normalized_in_range_witness :
    process_file [["1", "web", "34.33"], ["", "webinar", "55.4"], ["3", "webinar", "15.4"],
        ["2", "webinar", "55.4"]]
      = some [(1, "bronze", 4), (2, "platinum", 100), (3, "bronze", 0)]
  ∧ ∀ e ∈ [((1:ℤ), "bronze", (4:ℤ)), (2, "platinum", 100), (3, "bronze", 0)],
      0 ≤ e.2.2 ∧ e.2.2 ≤ 100 ∧ e.2.1 ≠ "" :=
  ⟨by decide,
   @normalized_in_range [["1", "web", "34.33"], ["", "webinar", "55.4"],
     ["3", "webinar", "15.4"], ["2", "webinar", "55.4"]]
     [(1, "bronze", 4), (2, "platinum", 100), (3, "bronze", 0)] (by decide)⟩

set_option maxRecDepth 10000 in
/-- Counterexample to claim C9. `parse_row` is not free of side effects: on the
repository's own test row `['1', 'people', '23.45']` (which fails with
`UnknownEventType`) the call leaves the row as `[1, 'people', '23.45']` —
field 0 has been replaced in place by the parsed integer. -/
theorem parse_row_mutation_counterexample :
    (parse_rowS ["1", "people", "23.45"]).2
      = [PyVal.i 1, PyVal.s "people", PyVal.s "23.45"]
  ∧ (parse_rowS ["1", "people", "23.45"]).2 ≠ ["1", "people", "23.45"].map PyVal.s := by
  refine ⟨by decide, by decide⟩

/-- Claim C9 as amended. `parse_row`'s outcome is a function of its input row
alone, but the call mutates the row in place: nothing is changed on
`MalformedRow` or `BadContactId`; field 0 holds the parsed int after an
`UnknownEventType` or `BadScore` failure; and on success fields 0 and 2 hold
the parsed int and float. -/
theorem parse_row_mutation_spec (row : List String) :
    (row.length < 3 → (parse_rowS row).2 = row.map PyVal.s)
  ∧ (∀ a b c rest, row = a :: b :: c :: rest →
      (pyParseInt a = none → (parse_rowS row).2 = row.map PyVal.s)
    ∧ (∀ ia, pyParseInt a = some ia → b ∉ EVENT_TYPES →
        (parse_rowS row).2 = PyVal.i ia :: PyVal.s b :: PyVal.s c :: rest.map PyVal.s)
    ∧ (∀ ia, pyParseInt a = some ia → b ∈ EVENT_TYPES → pyParseFloat c = none →
        (parse_rowS row).2 = PyVal.i ia :: PyVal.s b :: PyVal.s c :: rest.map PyVal.s)
    ∧ (∀ ia q, pyParseInt a = some ia → b ∈ EVENT_TYPES → pyParseFloat c = some q →
        (parse_rowS row).2 = PyVal.i ia :: PyVal.s b :: PyVal.f q :: rest.map PyVal.s)) := by
  constructor
  · intro hlen
    match row, hlen with
    | [], _ => rfl
    | [a], _ => rfl
    | [a, b], _ => rfl
    | a :: b :: c :: rest, h => simp at h; omega
  · rintro a b c rest rfl
    refine ⟨?_, ?_, ?_, ?_⟩
    · intro hint
      simp [parse_rowS, hint]
    · intro ia hint hb
      simp [parse_rowS, hint, hb]
    · intro ia hint hb hfl
      simp [parse_rowS, hint, hb, hfl]
    · intro ia q hint hb hfl
      simp [parse_rowS, hint, hb, hfl]

set_option maxRecDepth 10000 in
unseal Rat.add Rat.mul Rat.inv in
/-- Witness for the amended C9: final row states at one concrete row per
case. -/
theorem parse_row_mutation_spec_witness :
    (parse_rowS ["1"]).2 = ["1"].map PyVal.s
  ∧ (parse_rowS ["qw", "web", "23.45"]).2 = ["qw", "web", "23.45"].map PyVal.s
  ∧ (parse_rowS ["1", "people", "23.45"]).2
      = [PyVal.i 1, PyVal.s "people", PyVal.s "23.45"]
  ∧ (parse_rowS ["1", "web", ""]).2 = [PyVal.i 1, PyVal.s "web", PyVal.s ""]
  ∧ (parse_rowS ["1", "web", "23.45"]).2
      = [PyVal.i 1, PyVal.s "web", PyVal.f (469/20)] :=
  ⟨(parse_row_mutation_spec ["1"]).1 (by decide),
   ((parse_row_mutation_spec ["qw", "web", "23.45"]).2 "qw" "web" "23.45" [] rfl).1 (by decide),
   ((parse_row_mutation_spec ["1", "people", "23.45"]).2 "1" "people" "23.45" [] rfl).2.1 1
     (by decide) (by decide),
   ((parse_row_mutation_spec ["1", "web", ""]).2 "1" "web" "" [] rfl).2.2.1 1
     (by decide) (by decide) (by decide),
   ((parse_row_mutation_spec ["1", "web", "23.45"]).2 "1" "web" "23.45" [] rfl).2.2.2 1 (469/20)
     (by decide) (by decide) (by decide)⟩

/-- Claim C10. In an aggregate with at least two distinct totals, every contact
at the global minimum is emitted with normalized score exactly 0 and every
contact at the global maximum with exactly 100. -/
theorem extremes_normalize {rows : List (List String)} {ag : List (ℤ × ℚ)}
    {out : List (ℤ × String × ℤ)} {mx mn : ℚ}
    (hag : aggregateOf rows [] = some ag) (hout : process_file rows = some out)
    (hmx : maxQ (ag.map Prod.snd) = some mx) (hmn : minQ (ag.map Prod.snd) = some mn)
    (hdist : ∃ v ∈ ag.map Prod.snd, ∃ w ∈ ag.map Prod.snd, v ≠ w) :
    ∀ c v, lookupQ c ag = some v →
      (v = mn → (c, get_quartile_label 0, (0:ℤ)) ∈ out)
    ∧ (v = mx → (c, get_quartile_label 100, (100:ℤ)) ∈ out) := by
  obtain ⟨v0, hv0, w0, hw0, hvw⟩ := hdist
  have hne : mx ≠ mn := by
    intro h
    apply hvw
    have h1 := le_maxQ hmx v0 hv0
    have h2 := minQ_le hmn v0 hv0
    have h3 := le_maxQ hmx w0 hw0
    have h4 := minQ_le hmn w0 hw0
    rw [h] at h1 h3
    linarith
  rw [process_file, hag, Option.map_some'] at hout
  have hout2 : normalizeStage ag = out := Option.some.inj hout
  subst hout2
  intro c v hv
  have hck : c ∈ ag.map Prod.fst := (lookupQ_isSome_iff c ag).1 (by rw [hv]; rfl)
  have hkey := normalizeStage_key_mem hck hmx hmn
  rw [hv] at hkey
  simp only [Option.getD_some] at hkey
  constructor
  · intro hveq
    have h0 : normScore mx mn v = 0 := by
      rw [normScore, if_neg hne, hveq, sub_self, zero_div, zero_mul]
      simpa using pyRound_intCast 0
    rw [h0] at hkey
    exact hkey
  · intro hveq
    have h100 : normScore mx mn v = 100 := by
      rw [normScore, if_neg hne, hveq, div_self (sub_ne_zero.2 hne), one_mul]
      simpa using pyRound_intCast 100
    rw [h100] at hkey
    exact hkey

set_option maxRecDepth 10000 in
unseal Rat.add Rat.mul Rat.inv Rat.sub in
/-- Witness for C10 on the stream `1,web,0 / 2,web,8`: contact 1 (minimum) is
emitted with 0 and contact 2 (maximum) with 100. -/
theorem extremes_normalize_witness :
    process_file [["1", "web", "0"], ["2", "web", "8"]]
      = some [(1, "bronze", 0), (2, "platinum", 100)]
  ∧ (1, get_quartile_label 0, (0:ℤ)) ∈ [((1:ℤ), "bronze", (0:ℤ)), (2, "platinum", 100)]
  ∧ (2, get_quartile_label 100, (100:ℤ)) ∈ [((1:ℤ), "bronze", (0:ℤ)), (2, "platinum", 100)] := by
  have h := @extremes_normalize [["1", "web", "0"], ["2", "web", "8"]]
    [(1, 0), (2, 8)] [(1, "bronze", 0), (2, "platinum", 100)]
    8 0 (by decide) (by decide) (by decide) (by decide)
    ⟨0, by decide, 8, by decide, by decide⟩
  exact ⟨by decide, (h 1 0 (by decide)).1 rfl, (h 2 8 (by decide)).2 rfl⟩
